import Mathlib

/-
  Verification of the query-dispatch engine of the ts-dns DNS splitter
  (Go sources: inbound/tools.go and the RamSet file of the cache package).

  The Go code is shallowly embedded: DNS messages become a small inductive
  data model, pure helpers become Lean functions, the network/upstream layer
  (Caller.Call, pingRtt, the cache backend) is abstracted as explicit inputs,
  and Go panics (out-of-bounds indexing/slicing, nil-pointer dereference)
  become `Option` with `none` marking the panic.
-/

namespace TsDns

/-- A DNS resource record as the dispatcher observes it: an A record carries
an IPv4 address (modelled as a natural number, the 32-bit value), an AAAA
record carries an IPv6 address (the 128-bit value), and every other record
type is opaque. The zero AAAA record (`new(dns.AAAA)` in Go) has the all-zero
address, rendered `::`. -/
inductive Rec where
  | A (ip : Nat)
  | AAAA (ip : Nat)
  | other (meta : Nat)
deriving DecidableEq, Repr

/-- A DNS question: `Name` (a string, kept as a character list so that
case-mapping lemmas are available) and numeric `Qtype`
(`dns.TypeA = 1`, `dns.TypeAAAA = 28`). -/
structure Question where
  name : List Char
  qtype : Nat
deriving DecidableEq, Repr

/-- A DNS message: its question section, its answer records, and the ECS
subnet string that `common.FormatECS` reports for it (`[]` when the message
carries no ECS option, mirroring the empty string returned by Go). -/
structure Msg where
  question : List Question := []
  answer : List Rec := []
  ecs : List Char := []
deriving DecidableEq, Repr

/-- Modelled from the spec: `common.ExtractA` (package core/common, not part
of the given sources) returns the A records of a possibly-nil message;
`fastestA` calls it on nil messages, so it is nil-safe and returns nothing
for nil. Here it yields the IPv4 addresses of the A answers. -/
def extractA : Option Msg → List Nat
  | none => []
  | some m => m.answer.filterMap fun r =>
      match r with
      | .A ip => some ip
      | _ => none

/-- Modelled from the spec: `common.ExtractAAAA` (package core/common),
the AAAA analogue of `extractA`. -/
def extractAAAA : Option Msg → List Nat
  | none => []
  | some m => m.answer.filterMap fun r =>
      match r with
      | .AAAA ip => some ip
      | _ => none

/-- `allInRange` (inbound/tools.go): true iff every A answer lies in the
IPv4 range set and every AAAA answer lies in the IPv6 range set. The
dispatcher invokes it as `allInRange(r, handler.CNIP, handler.CNIPv6)`
(tools.go, default path), keeping separate sets per address family; the
loop structure (scan A records, then AAAA records, fail on the first
out-of-range address) follows tools.go lines 19-34. Range sets are
abstracted to their membership predicates. -/
def allInRange (r : Option Msg) (ipRange ipRangeV6 : Nat → Bool) : Bool :=
  (extractA r).all ipRange && (extractAAAA r).all ipRangeV6

/-- Outcome of the dispatcher's default (no rule matched) path: the final
response, whether the dirty group was invoked, and whether the result is
written to the cache (the Go local `usingCache`). -/
structure DefaultPathOut where
  r : Option Msg
  dirtyCalled : Bool
  usingCache : Bool
deriving DecidableEq, Repr

/-- The default path of `Handler.ServeDNS` (tools.go lines 464-491): resolve
via the clean group; if every address is in range keep that answer, else call
the dirty group, prefer its non-nil answer, and skip the cache write when the
dirty group returned nil. The two group calls are network effects and enter
as the inputs `clean` and `dirty` (the dirty result is only consulted — i.e.
the call only happens — on the out-of-range branch). -/
def serveDNSDefaultPath (clean dirty : Option Msg)
    (cnip cnipv6 : Nat → Bool) : DefaultPathOut :=
  if allInRange clean cnip cnipv6 then
    ⟨clean, false, true⟩
  else
    match dirty with
    | some rr => ⟨some rr, true, true⟩
    | none => ⟨clean, true, false⟩

/-- The rule-matched branch of `Handler.ServeDNS` (tools.go lines 450-462):
after group `name` produced `r`, either fall back to the clean group (when
`name = "dirty"` and `r` is nil) without caching, or cache `r` (even nil).
Returns the final response and whether `Cache.Set` was invoked. -/
def serveDNSRuleMatch (name : String) (r cleanResult : Option Msg) :
    Option Msg × Bool :=
  if name = "dirty" ∧ r = none then
    (cleanResult, false)
  else
    (r, true)

/-- A resolver group (inbound/tools.go `Group`), restricted to the fields the
verified claims exercise: the upstream callers (opaque handles), the rule
matcher `ABPlus.Match` (returning Go's `(match, ok)` pair), and the
`DisableIPv6` flag. -/
structure Group where
  Callers : List Nat := []
  MatcherMatch : List Char → Bool × Bool := fun _ => (false, false)
  DisableIPv6 : Bool := false

/-- The in-place overwrite performed by `Group.CallDNS` under `DisableIPv6`
(tools.go lines 192-196): an AAAA answer becomes `new(dns.AAAA)` — the empty
AAAA record, whose address is all zeroes (`::`) — and any other answer is
kept as is. -/
def blankAAAA : Rec → Rec
  | .AAAA _ => .AAAA 0
  | r => r

/-- `Group.CallDNS` (inbound/tools.go lines 189-199): wraps the fan-out
`callDNS` (whose network result enters as the input `records`); when the
group has `DisableIPv6` set and the result is non-nil, every AAAA answer is
overwritten in place with the empty AAAA record. -/
def Group.CallDNS (group : Group) (records : Option Msg) : Option Msg :=
  match records with
  | none => none
  | some m =>
      if group.DisableIPv6 then
        some { m with answer := m.answer.map blankAAAA }
      else
        some m

/-- Lowercasing of a string, character by character
(Go `strings.ToLower` on the key, tools.go line 309). -/
def toLowerStr (s : List Char) : List Char := s.map Char.toLower

/-- Decimal rendering of a query type
(Go `strconv.FormatInt(int64(question.Qtype), 10)`, tools.go line 305). -/
def decimalDigits (n : Nat) : List Char := (Nat.repr n).data

/-- The unguarded `request.Question[0]` access shared by `ServeDNS`
(tools.go line 400), `CondMap.getCacheKey` (line 304) and `Handler.HitHosts`
(line 348); `none` models the index-out-of-range panic on an empty question
section. -/
def question0 (request : Msg) : Option Question := request.question.head?

/-- `CondMap.getCacheKey` (inbound/tools.go lines 303-311): the cache and
single-flight fingerprint — the question name, then the decimal query type,
then (only when an ECS subnet is present) a dot and the subnet, the whole
key lowercased. -/
def getCacheKey (request : Msg) : Option (List Char) :=
  (question0 request).map fun question =>
    let key := question.name ++ decimalDigits question.qtype
    let key := if request.ecs = [] then key else key ++ '.' :: request.ecs
    toLowerStr key

lemma toLowerStr_append (a b : List Char) :
    toLowerStr (a ++ b) = toLowerStr a ++ toLowerStr b :=
  List.map_append Char.toLower a b

lemma toLowerStr_length (a : List Char) :
    (toLowerStr a).length = a.length :=
  List.length_map a Char.toLower

/-- Claim C4: the fingerprint of a request is the lowercase of
name ++ decimal qtype ++ (optional "." ++ ECS subnet); two requests that
differ only in their (case-canonical) ECS subnet therefore have distinct
fingerprints, and two requests that differ only in the case of the name have
the same fingerprint. -/
theorem getCacheKey_fingerprint :
    (∀ (q : Question) (qs : List Question) (ans : List Rec) (e : List Char),
      getCacheKey ⟨q :: qs, ans, e⟩ =
        some (toLowerStr (q.name ++ decimalDigits q.qtype ++
          (if e = [] then [] else '.' :: e)))) ∧
    (∀ (n : List Char) (t : Nat) (qs qs' : List Question)
       (ans ans' : List Rec) (e1 e2 : List Char),
      toLowerStr e1 = e1 → toLowerStr e2 = e2 → e1 ≠ e2 →
      getCacheKey ⟨⟨n, t⟩ :: qs, ans, e1⟩ ≠
        getCacheKey ⟨⟨n, t⟩ :: qs', ans', e2⟩) ∧
    (∀ (n1 n2 : List Char) (t : Nat) (qs1 qs2 : List Question)
       (ans1 ans2 : List Rec) (e : List Char),
      toLowerStr n1 = toLowerStr n2 →
      getCacheKey ⟨⟨n1, t⟩ :: qs1, ans1, e⟩ =
        getCacheKey ⟨⟨n2, t⟩ :: qs2, ans2, e⟩) := by
  have hkey : ∀ (q : Question) (qs : List Question) (ans : List Rec)
      (e : List Char),
      getCacheKey ⟨q :: qs, ans, e⟩ =
        some (toLowerStr (q.name ++ decimalDigits q.qtype ++
          (if e = [] then [] else '.' :: e))) := by
    intro q qs ans e
    simp only [getCacheKey, question0, List.head?, Option.map_some']
    by_cases he : e = [] <;> simp [he, List.append_assoc]
  refine ⟨hkey, ?_, ?_⟩
  · intro n t qs qs' ans ans' e1 e2 h1 h2 hne heq
    rw [hkey, hkey] at heq
    have heq' := Option.some.inj heq
    by_cases he1 : e1 = [] <;> by_cases he2 : e2 = []
    · exact hne (he1.trans he2.symm)
    · rw [if_pos he1, if_neg he2] at heq'
      have := congrArg List.length heq'
      simp only [toLowerStr_length, List.length_append, List.length_cons,
        List.append_nil] at this
      omega
    · rw [if_neg he1, if_pos he2] at heq'
      have := congrArg List.length heq'
      simp only [toLowerStr_length, List.length_append, List.length_cons,
        List.append_nil] at this
      omega
    · rw [if_neg he1, if_neg he2] at heq'
      simp only [toLowerStr_append] at heq'
      have htail := List.append_cancel_left heq'
      simp only [toLowerStr, List.map_cons] at htail
      have := List.cons.inj htail
      rw [show List.map Char.toLower e1 = toLowerStr e1 from rfl,
        show List.map Char.toLower e2 = toLowerStr e2 from rfl, h1, h2]
        at this
      exact hne this.2
  · intro n1 n2 t qs1 qs2 ans1 ans2 e hn
    rw [hkey, hkey]
    simp only [toLowerStr_append]
    rw [hn]

/-- Witness for C4: same name and type but ECS subnets "1" vs "2" give
distinct keys; names "A" vs "a" with everything else equal give the same
key. -/
theorem getCacheKey_fingerprint_witness :
    (getCacheKey ⟨[⟨['a'], 1⟩], [], ['1']⟩ ≠
      getCacheKey ⟨[⟨['a'], 1⟩], [], ['2']⟩) ∧
    (getCacheKey ⟨[⟨['A'], 1⟩], [], []⟩ =
      getCacheKey ⟨[⟨['a'], 1⟩], [], []⟩) :=
  ⟨getCacheKey_fingerprint.2.1 ['a'] 1 [] [] [] [] ['1'] ['2']
      (by decide) (by decide) (by decide),
   getCacheKey_fingerprint.2.2 ['A'] ['a'] 1 [] [] [] [] [] (by decide)⟩

lemma allInRange_eq_false_iff (r : Option Msg) (c4 c6 : Nat → Bool) :
    allInRange r c4 c6 = false ↔
      (∃ ip ∈ extractA r, c4 ip = false) ∨
      (∃ ip ∈ extractAAAA r, c6 ip = false) := by
  rw [← Bool.not_eq_true]
  simp only [allInRange, Bool.and_eq_true, List.all_eq_true, not_and_or,
    not_forall, Bool.not_eq_true, exists_prop]

/-- Claim C1: on the default (no rule matched) path, the dispatcher invokes
the dirty group exactly when some address of the clean response is out of
range — a v4 address outside `CNIP` or a v6 address outside `CNIPv6` — and
in particular a response with no A/AAAA records never triggers the dirty
group. -/
theorem serveDNS_range_gating (clean dirty : Option Msg)
    (cnip cnipv6 : Nat → Bool) :
    ((serveDNSDefaultPath clean dirty cnip cnipv6).dirtyCalled = true ↔
      (∃ ip ∈ extractA clean, cnip ip = false) ∨
      (∃ ip ∈ extractAAAA clean, cnipv6 ip = false)) ∧
    (extractA clean = [] ∧ extractAAAA clean = [] →
      (serveDNSDefaultPath clean dirty cnip cnipv6).dirtyCalled = false) := by
  have hmain : (serveDNSDefaultPath clean dirty cnip cnipv6).dirtyCalled = true ↔
      (∃ ip ∈ extractA clean, cnip ip = false) ∨
      (∃ ip ∈ extractAAAA clean, cnipv6 ip = false) := by
    rw [← allInRange_eq_false_iff clean cnip cnipv6]
    cases hb : allInRange clean cnip cnipv6 with
    | true => simp [serveDNSDefaultPath, hb]
    | false =>
        cases dirty with
        | none => simp [serveDNSDefaultPath, hb]
        | some rr => simp [serveDNSDefaultPath, hb]
  refine ⟨hmain, fun hempty => ?_⟩
  rw [Bool.eq_false_iff]
  intro hcall
  rcases hmain.mp hcall with ⟨ip, hip, _⟩ | ⟨ip, hip, _⟩
  · rw [hempty.1] at hip
    exact absurd hip (List.not_mem_nil ip)
  · rw [hempty.2] at hip
    exact absurd hip (List.not_mem_nil ip)

/-- Witness for C1: an empty clean response never triggers the dirty
group. -/
theorem serveDNS_range_gating_witness :
    (serveDNSDefaultPath none none (fun _ => false)
      (fun _ => false)).dirtyCalled = false :=
  (serveDNS_range_gating none none (fun _ => false) (fun _ => false)).2
    ⟨rfl, rfl⟩

/-- Claim C3: when the matched rule group is named "dirty" and its call
returned nil, the dispatcher returns the clean group's answer and performs no
cache write; in every other rule-matched case the group's result — nil
included — is written to the cache. -/
theorem serveDNS_dirty_fallback :
    (∀ cleanResult : Option Msg,
      serveDNSRuleMatch "dirty" none cleanResult = (cleanResult, false)) ∧
    (∀ (name : String) (r cleanResult : Option Msg),
      ¬(name = "dirty" ∧ r = none) →
        serveDNSRuleMatch name r cleanResult = (r, true)) := by
  constructor
  · intro cleanResult
    simp [serveDNSRuleMatch]
  · intro name r cleanResult h
    simp [serveDNSRuleMatch, h]

/-- Witness for C3: the dirty/nil case falls back without caching, while a
"clean"-matched nil result is cached. -/
theorem serveDNS_dirty_fallback_witness :
    serveDNSRuleMatch "dirty" none (some ⟨[], [Rec.A 5], []⟩) =
      (some ⟨[], [Rec.A 5], []⟩, false) ∧
    serveDNSRuleMatch "clean" none none = (none, true) :=
  ⟨serveDNS_dirty_fallback.1 (some ⟨[], [Rec.A 5], []⟩),
   serveDNS_dirty_fallback.2 "clean" none none (by simp)⟩

/-- Claim C6: with `DisableIPv6` set, a non-nil group result has every AAAA
answer replaced by the empty (`::`) AAAA record, with answer count and order
preserved and all non-AAAA answers untouched. -/
theorem callDNS_disableIPv6 (group : Group) (m : Msg)
    (hd : group.DisableIPv6 = true) :
    Group.CallDNS group (some m) =
        some { m with answer := m.answer.map blankAAAA } ∧
    (m.answer.map blankAAAA).length = m.answer.length ∧
    (∀ ip, blankAAAA (Rec.AAAA ip) = Rec.AAAA 0) ∧
    (∀ ip, blankAAAA (Rec.A ip) = Rec.A ip) ∧
    (∀ t, blankAAAA (Rec.other t) = Rec.other t) := by
  refine ⟨?_, m.answer.length_map blankAAAA, fun _ => rfl, fun _ => rfl,
    fun _ => rfl⟩
  simp [Group.CallDNS, hd]

/-- Witness for C6: a mixed answer section keeps its A and other records and
has its AAAA zeroed. -/
theorem callDNS_disableIPv6_witness :
    Group.CallDNS ⟨[], fun _ => (false, false), true⟩
        (some ⟨[], [Rec.A 1, Rec.AAAA 2, Rec.other 3], []⟩) =
      some ⟨[], [Rec.A 1, Rec.AAAA 0, Rec.other 3], []⟩ :=
  Eq.trans
    (callDNS_disableIPv6 ⟨[], fun _ => (false, false), true⟩
      ⟨[], [Rec.A 1, Rec.AAAA 2, Rec.other 3], []⟩ rfl).1
    (by decide)

/-- The DNS request handler (inbound/tools.go `Handler`). Pointer-valued /
nillable fields are `Option` over opaque handles (only identity matters for
the refresh claim); the group map is an association list, `none` standing for
a nil Go map. -/
structure Handler where
  Mux : Nat
  Listen : String
  Network : String
  DisableIPv6 : Bool := false
  Cache : Option Nat := none
  GFWMatcher : Option Nat := none
  CNIP : Option Nat := none
  CNIPv6 : Option Nat := none
  HostsReaders : Option Nat := none
  Groups : Option (List (String × Group)) := none
  QueryLogger : Option Nat := none
  DisableQTypes : List String := []

/-- `Handler.Refresh` (inbound/tools.go lines 529-552), field for field: each
`if target.X != nil { handler.X = target.X }` becomes a conditional update,
`DisableIPv6` is copied unconditionally, and no other field is touched. The
source has no branch for `CNIPv6`. -/
def Handler.Refresh (handler target : Handler) : Handler :=
  let handler := match target.Cache with
    | some _ => { handler with Cache := target.Cache }
    | none => handler
  let handler := match target.GFWMatcher with
    | some _ => { handler with GFWMatcher := target.GFWMatcher }
    | none => handler
  let handler := match target.CNIP with
    | some _ => { handler with CNIP := target.CNIP }
    | none => handler
  let handler := match target.HostsReaders with
    | some _ => { handler with HostsReaders := target.HostsReaders }
    | none => handler
  let handler := match target.Groups with
    | some _ => { handler with Groups := target.Groups }
    | none => handler
  let handler := match target.QueryLogger with
    | some _ => { handler with QueryLogger := target.QueryLogger }
    | none => handler
  { handler with DisableIPv6 := target.DisableIPv6 }

/-- Claim C7 (refuting evaluation): refreshing a handler from a target whose
`CNIPv6` is non-nil leaves the handler's `CNIPv6` untouched — the code has no
`CNIPv6` branch although its own comment says every field but `Mux` and
`Listen` is copied — while `Cache` is replaced and `Mux`/`Listen` are kept as
the claim states. -/
theorem refresh_skips_CNIPv6 :
    (Handler.Refresh
        ⟨0, "addr", "udp", false, none, none, none, some 1, none, none,
          none, []⟩
        ⟨9, "other", "tcp", true, some 7, none, none, some 2, none, none,
          none, []⟩).CNIPv6 = some 1 ∧
    (⟨9, "other", "tcp", true, some 7, none, none, some 2, none, none,
        none, []⟩ : Handler).CNIPv6 = some 2 ∧
    (Handler.Refresh
        ⟨0, "addr", "udp", false, none, none, none, some 1, none, none,
          none, []⟩
        ⟨9, "other", "tcp", true, some 7, none, none, some 2, none, none,
          none, []⟩).Cache = some 7 ∧
    (Handler.Refresh
        ⟨0, "addr", "udp", false, none, none, none, some 1, none, none,
          none, []⟩
        ⟨9, "other", "tcp", true, some 7, none, none, some 2, none, none,
          none, []⟩).Listen = "addr" ∧
    (Handler.Refresh
        ⟨0, "addr", "udp", false, none, none, none, some 1, none, none,
          none, []⟩
        ⟨9, "other", "tcp", true, some 7, none, none, some 2, none, none,
          none, []⟩).Mux = 0 :=
  ⟨rfl, rfl, rfl, rfl, rfl⟩

/-- Go's `handler.Groups[name]`: indexing a nil map yields the zero value, a
nil `*Group`, modelled as `none` (as is a missing key). -/
def lookupGroup (groups : Option (List (String × Group))) (name : String) :
    Option Group :=
  match groups with
  | none => none
  | some gs => gs.lookup name

/-- The drop-rule step of `ServeDNS` (tools.go line 447):
`handler.Groups["drop"].Matcher.Match(question.Name)` with the result used as
`ok && match`. Selecting `.Matcher` on the nil `*Group` returned for a
missing "drop" entry is a nil-pointer dereference, modelled as `none`. -/
def Handler.dropMatch (handler : Handler) (name : List Char) : Option Bool :=
  match lookupGroup handler.Groups "drop" with
  | none => none
  | some g => some ((g.MatcherMatch name).2 && (g.MatcherMatch name).1)

/-- `Handler.IsValid` (inbound/tools.go lines 555-565): valid iff the group
map is non-nil and both "clean" and "dirty" exist with at least one caller;
nothing about a "drop" group is checked. -/
def Handler.IsValid (handler : Handler) : Bool :=
  match handler.Groups with
  | none => false
  | some gs =>
      match gs.lookup "clean", gs.lookup "dirty" with
      | some clean, some dirty =>
          !(clean.Callers.length == 0 || dirty.Callers.length == 0)
      | _, _ => false

/-- Claim C10: the drop-rule step dereferences a nil `*Group` (panics)
exactly when no "drop" group exists, and `IsValid` accepts handlers without a
"drop" group — so the step is safe only under the extra precondition that a
"drop" group is present. -/
theorem serveDNS_drop_nil_deref :
    (∀ (handler : Handler) (name : List Char),
      handler.dropMatch name = none ↔
        lookupGroup handler.Groups "drop" = none) ∧
    (∃ handler : Handler, handler.IsValid = true ∧
      lookupGroup handler.Groups "drop" = none) := by
  constructor
  · intro handler name
    cases h : lookupGroup handler.Groups "drop" <;>
      simp [Handler.dropMatch, h]
  · refine ⟨⟨0, "", "", false, none, none, none, none, none,
      some [("clean", ⟨[0], fun _ => (false, false), false⟩),
            ("dirty", ⟨[0], fun _ => (false, false), false⟩)],
      none, []⟩, rfl, rfl⟩

/-- Go's `hostname[:len(hostname)-1]` (tools.go line 355): drops the trailing
character; slicing with a negative bound — an empty `hostname` — panics,
modelled as `none`. -/
def dropLastChar (s : List Char) : Option (List Char) :=
  if s.isEmpty then none else some s.dropLast

/-- The reader loop of `Handler.HitHosts` (tools.go lines 351-366). A hosts
reader is its `Record(hostname, ipv6)` function; `parseRR` abstracts
`dns.NewRR` (`none` = parse error, which is logged and the loop continues).
When the first lookup misses, the name is re-tried without its trailing
character — panicking (outer `none`) on an empty name. A hit returns a
message whose answer is the single parsed record. -/
def hitHostsLoop (parseRR : List Char → Option Rec)
    (readers : List (List Char → Bool → List Char))
    (hostname : List Char) (ipv6 : Bool) : Option (Option Msg) :=
  match readers with
  | [] => some none
  | reader :: rest =>
      match (if reader hostname ipv6 = [] then
              (dropLastChar hostname).map fun trimmed => reader trimmed ipv6
            else some (reader hostname ipv6)) with
      | none => none
      | some record =>
          if record = [] then hitHostsLoop parseRR rest hostname ipv6
          else
            match parseRR record with
            | some rr => some (some ⟨[], [rr], []⟩)
            | none => hitHostsLoop parseRR rest hostname ipv6

/-- `Handler.HitHosts` (inbound/tools.go lines 347-369): reads
`request.Question[0]` unguarded (panic `none` on an empty question section),
only consults the readers for A (1) / AAAA (28) queries, and otherwise
reports a miss (`some none`). -/
def HitHosts (parseRR : List Char → Option Rec)
    (readers : List (List Char → Bool → List Char))
    (request : Msg) : Option (Option Msg) :=
  match question0 request with
  | none => none
  | some question =>
      if question.qtype = 1 ∨ question.qtype = 28 then
        hitHostsLoop parseRR readers question.name (question.qtype == 28)
      else some none

lemma hitHostsLoop_isSome (parseRR : List Char → Option Rec)
    (readers : List (List Char → Bool → List Char))
    (hostname : List Char) (ipv6 : Bool) (h : hostname ≠ []) :
    (hitHostsLoop parseRR readers hostname ipv6).isSome = true := by
  induction readers with
  | nil => rfl
  | cons reader rest ih =>
      have hd : dropLastChar hostname = some hostname.dropLast := by
        simp [dropLastChar, h]
      by_cases hr : reader hostname ipv6 = []
      · simp only [hitHostsLoop, if_pos hr, hd, Option.map_some']
        by_cases hr2 : reader hostname.dropLast ipv6 = []
        · simp [hr2, ih]
        · cases hp : parseRR (reader hostname.dropLast ipv6) <;>
            simp [hr2, hp, ih]
      · simp only [hitHostsLoop, if_neg hr]
        cases hp : parseRR (reader hostname ipv6) <;> simp [hr, hp, ih]

/-- Claim C9: the dispatcher's entry points are total only for requests with
a nonempty question whose name is nonempty — `question0` (the unguarded
`Question[0]` of ServeDNS/getCacheKey/HitHosts) panics on an empty question
section, `HitHosts` panics on an empty question name after a reader miss, and
with a nonempty name `HitHosts` never panics. -/
theorem serveDNS_question_panics :
    (∀ request : Msg, request.question = [] →
      question0 request = none ∧ getCacheKey request = none ∧
      ∀ parseRR readers, HitHosts parseRR readers request = none) ∧
    (HitHosts (fun _ => none) [fun _ _ => []] ⟨[⟨[], 1⟩], [], []⟩ = none) ∧
    (∀ (parseRR : List Char → Option Rec)
       (readers : List (List Char → Bool → List Char)) (request : Msg)
       (q : Question), question0 request = some q → q.name ≠ [] →
      (HitHosts parseRR readers request).isSome = true) := by
  refine ⟨?_, rfl, ?_⟩
  · intro request hq
    have h0 : question0 request = none := by
      simp [question0, hq]
    exact ⟨h0, by simp [getCacheKey, h0], fun parseRR readers => by
      simp [HitHosts, h0]⟩
  · intro parseRR readers request q hq hname
    simp only [HitHosts, hq]
    split
    · exact hitHostsLoop_isSome parseRR readers q.name _ hname
    · rfl

/-- Witness for C9: the empty request panics at the question access, and a
request asking for name "a" is served without panic. -/
theorem serveDNS_question_panics_witness :
    (question0 ⟨[], [], []⟩ = none ∧ getCacheKey ⟨[], [], []⟩ = none ∧
      HitHosts (fun _ => none) [] ⟨[], [], []⟩ = none) ∧
    (HitHosts (fun _ => none) [] ⟨[⟨['a'], 1⟩], [], []⟩).isSome = true :=
  ⟨(fun h => ⟨h.1, h.2.1, h.2.2 (fun _ => none) []⟩)
      (serveDNS_question_panics.1 ⟨[], [], []⟩ rfl),
   serveDNS_question_panics.2.2 (fun _ => none) [] ⟨[⟨['a'], 1⟩], [], []⟩
      ⟨['a'], 1⟩ rfl (by decide)⟩

/-- The probe cap (inbound/tools.go line 17, `const maxRtt = 500`). -/
def maxRtt : Nat := 500

/-- Go `math.MaxInt64`, the initial value of `lowestRtt` in `fastestA`. -/
def maxInt64 : Nat := 9223372036854775807

/-- The channel-draining loop of `fastestA` (tools.go lines 67-71): every
drained non-nil message overwrites the captured response, so the last non-nil
message survives trailing nils. -/
def drainLast (msgs : List (Option Msg)) : Option Msg :=
  msgs.foldl
    (fun res msg =>
      match msg with
      | some x => some x
      | none => res)
    none

/-- All IPv4 addresses of A records across the drained messages — the IPs
`fastestA` probes (it deduplicates via `aMap`, which only affects how often
an IP is pinged, not which IPs are probed). -/
def probedIPs (msgs : List (Option Msg)) : List Nat :=
  msgs.flatMap extractA

/-- One iteration of the minimum search over `rttMap` (tools.go lines
95-99): replace the running best when `rtt < maxRtt && rtt < lowestRtt`. -/
def selectStep (rtt : Nat → Nat) (st : Nat × Option Nat) (ip : Nat) :
    Nat × Option Nat :=
  if rtt ip < maxRtt ∧ rtt ip < st.1 then (rtt ip, some ip) else st

/-- The full minimum search of `fastestA`, starting from
`lowestRtt = math.MaxInt64` and `fastestIP = ""` (`none`); `order` is the
iteration order of the Go map `rttMap`, constrained by the theorems to
enumerate exactly the probed IPs. -/
def selectFastest (rtt : Nat → Nat) (order : List Nat) : Nat × Option Nat :=
  order.foldl (selectStep rtt) (maxInt64, none)

/-- Modelled from the spec: `common.RemoveA` (package core/common, not part
of the given sources) removes every A record from the answer section,
keeping all other answers. -/
def removeA (answer : List Rec) : List Rec :=
  answer.filter fun r =>
    match r with
    | .A _ => false
    | _ => true

/-- `fastestA` (inbound/tools.go lines 64-108): drain `chLen` messages
(given here as the list `msgs`), remember the last non-nil one, probe each
distinct A-record IPv4 (`rtt` abstracts `pingRtt`, a network effect), pick
the strictly lowest RTT under the cap, and, when both a winner and a captured
response exist, rewrite the response to carry exactly the winning A record;
otherwise return the captured response (possibly nil) unchanged. -/
def fastestA (msgs : List (Option Msg)) (rtt : Nat → Nat)
    (order : List Nat) : Option Msg :=
  match (selectFastest rtt order).2, drainLast msgs with
  | some ip, some m => some { m with answer := removeA m.answer ++ [Rec.A ip] }
  | _, res => res

lemma drainLast_eq (msgs : List (Option Msg)) :
    drainLast msgs = (msgs.filterMap id).reverse.head? := by
  have haux : ∀ (l : List (Option Msg)) (acc : Option Msg),
      l.foldl
        (fun res msg =>
          match msg with
          | some x => some x
          | none => res) acc =
      (match (l.filterMap id).reverse.head? with
       | some x => some x
       | none => acc) := by
    intro l
    induction l with
    | nil => intro acc; rfl
    | cons msg rest ih =>
        intro acc
        cases msg with
        | none =>
            rw [List.foldl_cons]
            rw [ih acc]
            rfl
        | some x =>
            rw [List.foldl_cons]
            rw [ih (some x)]
            have hfm : (some x :: rest).filterMap id =
                x :: rest.filterMap id := rfl
            rw [hfm, List.reverse_cons]
            cases hrev : (rest.filterMap id).reverse with
            | nil => simp [hrev]
            | cons y ys => simp [hrev]
  have h := haux msgs none
  rw [drainLast, h]
  cases (msgs.filterMap id).reverse.head? <;> rfl

lemma drainLast_eq_none (msgs : List (Option Msg)) :
    drainLast msgs = none ↔ ∀ m ∈ msgs, m = none := by
  rw [drainLast_eq]
  rw [List.head?_eq_none_iff, List.reverse_eq_nil_iff,
    List.filterMap_eq_nil_iff]
  simp

lemma selectFold_noqual (rtt : Nat → Nat) :
    ∀ (l : List Nat) (st : Nat × Option Nat),
      (∀ ip ∈ l, ¬ rtt ip < maxRtt) →
      l.foldl (selectStep rtt) st = st := by
  intro l
  induction l with
  | nil => intro st _; rfl
  | cons x xs ih =>
      intro st hl
      rw [List.foldl_cons]
      have hx : selectStep rtt st x = st := by
        have := hl x (List.mem_cons_self x xs)
        simp [selectStep, this]
      rw [hx]
      exact ih st fun ip hip => hl ip (List.mem_cons_of_mem x hip)

lemma selectFold_skip (rtt : Nat → Nat) (ip0 : Nat) :
    ∀ (l : List Nat),
      (∀ ip ∈ l, ip = ip0 ∨ rtt ip0 < rtt ip) →
      l.foldl (selectStep rtt) (rtt ip0, some ip0) =
        (rtt ip0, some ip0) := by
  intro l
  induction l with
  | nil => intro _; rfl
  | cons x xs ih =>
      intro hl
      rw [List.foldl_cons]
      have hx : selectStep rtt (rtt ip0, some ip0) x = (rtt ip0, some ip0) := by
        rcases hl x (List.mem_cons_self x xs) with hx | hx
        · subst hx; simp [selectStep]
        · have : ¬ rtt x < rtt ip0 := by omega
          simp [selectStep, this]
      rw [hx]
      exact ih fun ip hip => hl ip (List.mem_cons_of_mem x hip)

lemma selectFold_main (rtt : Nat → Nat) (ip0 : Nat) (hcap : rtt ip0 < maxRtt) :
    ∀ (l : List Nat) (st : Nat × Option Nat),
      ip0 ∈ l →
      (∀ ip ∈ l, ip = ip0 ∨ rtt ip0 < rtt ip) →
      rtt ip0 < st.1 →
      l.foldl (selectStep rtt) st = (rtt ip0, some ip0) := by
  intro l
  induction l with
  | nil => intro st hmem; exact absurd hmem (List.not_mem_nil ip0)
  | cons x xs ih =>
      intro st hmem hl hlt
      rw [List.foldl_cons]
      by_cases hx : x = ip0
      · subst hx
        have hstep : selectStep rtt st x = (rtt x, some x) := by
          simp [selectStep, hcap, hlt]
        rw [hstep]
        exact selectFold_skip rtt x xs
          fun ip hip => hl ip (List.mem_cons_of_mem x hip)
      · have hgt : rtt ip0 < rtt x :=
          (hl x (List.mem_cons_self x xs)).resolve_left hx
        have hmem' : ip0 ∈ xs := by
          rcases List.mem_cons.mp hmem with h | h
          · exact absurd h.symm hx
          · exact h
        have hlt' : rtt ip0 < (selectStep rtt st x).1 := by
          by_cases hc : rtt x < maxRtt ∧ rtt x < st.1
          · simp [selectStep, hc]; omega
          · simp [selectStep, hc]; exact hlt
        exact ih (selectStep rtt st x) hmem'
          (fun ip hip => hl ip (List.mem_cons_of_mem x hip)) hlt'

/-- Claim C5: `fastestA` keeps the last non-nil drained message as the
captured response; it returns nil exactly when every drained message was nil;
when no probed IPv4 is under the cap the captured response is returned
unchanged; and when some probed IPv4 is under the cap and strictly fastest
among all probed candidates (for any enumeration order of the RTT map), the
captured response is rewritten to drop every A record and carry exactly the
winning A record. -/
theorem fastestA_spec :
    (∀ msgs : List (Option Msg),
      drainLast msgs = (msgs.filterMap id).reverse.head?) ∧
    (∀ (msgs : List (Option Msg)) (rtt : Nat → Nat) (order : List Nat),
      fastestA msgs rtt order = none ↔ ∀ m ∈ msgs, m = none) ∧
    (∀ (msgs : List (Option Msg)) (rtt : Nat → Nat) (order : List Nat),
      (∀ ip ∈ order, ¬ rtt ip < maxRtt) →
      fastestA msgs rtt order = drainLast msgs) ∧
    (∀ (msgs : List (Option Msg)) (rtt : Nat → Nat) (order : List Nat)
       (ip0 : Nat) (m : Msg),
      (∀ ip, ip ∈ order ↔ ip ∈ probedIPs msgs) →
      ip0 ∈ probedIPs msgs →
      rtt ip0 < maxRtt →
      (∀ ip ∈ probedIPs msgs, ip = ip0 ∨ rtt ip0 < rtt ip) →
      drainLast msgs = some m →
      fastestA msgs rtt order =
        some { m with answer := removeA m.answer ++ [Rec.A ip0] }) := by
  refine ⟨drainLast_eq, ?_, ?_, ?_⟩
  · intro msgs rtt order
    rw [← drainLast_eq_none msgs]
    constructor
    · intro h
      cases hsel : (selectFastest rtt order).2 <;>
        cases hdr : drainLast msgs <;>
        simp [fastestA, hsel, hdr] at h ⊢
    · intro h
      cases hsel : (selectFastest rtt order).2 <;>
        simp [fastestA, hsel, h]
  · intro msgs rtt order hno
    have hsel : (selectFastest rtt order).2 = none := by
      rw [selectFastest, selectFold_noqual rtt order _ hno]
    cases hdr : drainLast msgs <;> simp [fastestA, hsel, hdr]
  · intro msgs rtt order ip0 m horder hmem hcap hmin hdr
    have hmem' : ip0 ∈ order := (horder ip0).mpr hmem
    have hmin' : ∀ ip ∈ order, ip = ip0 ∨ rtt ip0 < rtt ip :=
      fun ip hip => hmin ip ((horder ip).mp hip)
    have hlt : rtt ip0 < (maxInt64, (none : Option Nat)).1 := by
      have : maxRtt < maxInt64 := by decide
      omega
    have hsel : selectFastest rtt order = (rtt ip0, some ip0) :=
      selectFold_main rtt ip0 hcap order (maxInt64, none) hmem' hmin' hlt
    simp [fastestA, hsel, hdr]

/-- Witness for C5 (the spec's scenario: candidates 1.1.1.1, 8.8.8.8,
2.2.2.2 with RTTs 80, 20, 150 ms): the reply's single A record is the
20 ms one. -/
theorem fastestA_spec_witness :
    fastestA
      [some ⟨[], [Rec.A 1], []⟩, some ⟨[], [Rec.A 8], []⟩,
       some ⟨[], [Rec.A 2], []⟩]
      (fun ip => if ip = 8 then 20 else if ip = 1 then 80 else 150)
      [1, 8, 2] = some ⟨[], [Rec.A 8], []⟩ :=
  (fastestA_spec.2.2.2
    [some ⟨[], [Rec.A 1], []⟩, some ⟨[], [Rec.A 8], []⟩,
     some ⟨[], [Rec.A 2], []⟩]
    (fun ip => if ip = 8 then 20 else if ip = 1 then 80 else 150)
    [1, 8, 2] 8 ⟨[], [Rec.A 2], []⟩
    (fun _ => Iff.rfl) (by decide) (by decide) (by decide) rfl).trans
    (by decide)

/-- `cache.RamSet`: the in-memory ipset — CIDR blocks plus an exact-IP hash
index keyed by the IP's string form. The IP type `α` and the CIDR type `β`
are abstract (Go's `net.IP` / `net.IPNet` parsing and printing are stdlib
collaborators, passed in as `parseIP`, `canon`, `parseCIDR`,
`cidrContains`); strings are character lists and the hash index is its key
set. -/
structure RamSet (α β : Type) where
  subnet : List β
  ipMap : List (List Char)

/-- The string a nil `net.IP` prints as. -/
def nilMarker : List Char := ['<', 'n', 'i', 'l', '>']

/-- Go's `String()` on a possibly-nil `net.IP`: a nil IP (failed parse)
prints as the nil marker. -/
def ipString {α : Type} (canon : α → List Char) : Option α → List Char
  | none => nilMarker
  | some a => canon a

/-- The cutset of `strings.Trim(line, " \t\n\r")`. -/
def isCutChar (c : Char) : Bool :=
  c = ' ' || c = '\t' || c = '\n' || c = '\r'

/-- `strings.Trim(line, " \t\n\r")`: strip cutset characters from both
ends. -/
def trimLine (s : List Char) : List Char :=
  ((s.dropWhile isCutChar).reverse.dropWhile isCutChar).reverse

/-- `strings.Split(text, "\n")`: split at every newline; n separators yield
n+1 pieces (empty text yields one empty piece). -/
def splitLines : List Char → List (List Char)
  | [] => [[]]
  | c :: rest =>
      if c = '\n' then [] :: splitLines rest
      else
        match splitLines rest with
        | t :: ts => (c :: t) :: ts
        | [] => [[c]]

/-- Membership in the hash index (`_, ok := s.ipMap[key]`). -/
def mapContains (m : List (List Char)) (k : List Char) : Bool :=
  m.any fun x => x = k

/-- Assignment `s.ipMap[k] = true` on the key-set view of the map. -/
def mapInsert (m : List (List Char)) (k : List Char) : List (List Char) :=
  if mapContains m k then m else k :: m

/-- One line of `NewRamSetByText` (part_000 lines 77-83): trim the line,
unconditionally index `ParseIP(line).String()` — note the nil marker for
unparseable and empty lines — and append the block when the line parses as
a CIDR. -/
def ramStep {α β : Type} (parseIP : List Char → Option α)
    (canon : α → List Char) (parseCIDR : List Char → Option β)
    (s : RamSet α β) (line : List Char) : RamSet α β :=
  match parseCIDR (trimLine line) with
  | some sn =>
      ⟨s.subnet ++ [sn],
       mapInsert s.ipMap (ipString canon (parseIP (trimLine line)))⟩
  | none =>
      ⟨s.subnet, mapInsert s.ipMap (ipString canon (parseIP (trimLine line)))⟩

/-- `NewRamSetByText` (part_000 lines 74-85): fold `ramStep` over the lines
of the text, starting from the empty set. -/
def NewRamSetByText {α β : Type} (parseIP : List Char → Option α)
    (canon : α → List Char) (parseCIDR : List Char → Option β)
    (text : List Char) : RamSet α β :=
  (splitLines text).foldl (ramStep parseIP canon parseCIDR) ⟨[], []⟩

/-- `RamSet.Contain` (part_000 lines 61-72): first the exact-IP hash lookup
by the target's string form, then a linear scan of the CIDR blocks (a nil
target is contained in no block). -/
def RamSet.Contain {α β : Type} (s : RamSet α β) (canon : α → List Char)
    (cidrContains : β → α → Bool) (target : Option α) : Bool :=
  if mapContains s.ipMap (ipString canon target) then true
  else s.subnet.any fun sn =>
    match target with
    | some a => cidrContains sn a
    | none => false

lemma mapContains_iff (m : List (List Char)) (k : List Char) :
    mapContains m k = true ↔ k ∈ m := by
  simp only [mapContains, List.any_eq_true, decide_eq_true_eq]
  constructor
  · rintro ⟨x, hx, rfl⟩; exact hx
  · intro h; exact ⟨k, h, rfl⟩

lemma mapContains_insert_iff (m : List (List Char)) (k k' : List Char) :
    mapContains (mapInsert m k') k = true ↔
      (k' = k ∨ mapContains m k = true) := by
  by_cases hm : mapContains m k' = true
  · simp only [mapInsert, hm, if_true]
    constructor
    · intro h; right; exact h
    · rintro (rfl | h)
      · exact hm
      · exact h
  · simp only [mapInsert, hm, Bool.false_eq_true, if_false]
    rw [mapContains_iff, List.mem_cons, ← mapContains_iff]
    constructor
    · rintro (rfl | h)
      · left; rfl
      · right; exact h
    · rintro (rfl | h)
      · left; rfl
      · right; exact h

lemma ramBuild_ipMap {α β : Type} (parseIP : List Char → Option α)
    (canon : α → List Char) (parseCIDR : List Char → Option β) :
    ∀ (lines : List (List Char)) (s0 : RamSet α β) (k : List Char),
      mapContains
          ((lines.foldl (ramStep parseIP canon parseCIDR) s0).ipMap) k =
        true ↔
      (mapContains s0.ipMap k = true ∨
        ∃ l ∈ lines, ipString canon (parseIP (trimLine l)) = k) := by
  intro lines
  induction lines with
  | nil => intro s0 k; simp
  | cons l ls ih =>
      intro s0 k
      rw [List.foldl_cons]
      have hmap : (ramStep parseIP canon parseCIDR s0 l).ipMap =
          mapInsert s0.ipMap (ipString canon (parseIP (trimLine l))) := by
        unfold ramStep
        cases parseCIDR (trimLine l) <;> rfl
      rw [ih, hmap, mapContains_insert_iff]
      simp only [List.mem_cons]
      constructor
      · rintro ((rfl | h) | ⟨x, hx, hk⟩)
        · exact Or.inr ⟨l, Or.inl rfl, rfl⟩
        · exact Or.inl h
        · exact Or.inr ⟨x, Or.inr hx, hk⟩
      · rintro (h | ⟨x, (rfl | hx), hk⟩)
        · exact Or.inl (Or.inr h)
        · exact Or.inl (Or.inl hk)
        · exact Or.inr ⟨x, hx, hk⟩

lemma ramBuild_subnet {α β : Type} (parseIP : List Char → Option α)
    (canon : α → List Char) (parseCIDR : List Char → Option β) :
    ∀ (lines : List (List Char)) (s0 : RamSet α β),
      (lines.foldl (ramStep parseIP canon parseCIDR) s0).subnet =
        s0.subnet ++ lines.filterMap fun l => parseCIDR (trimLine l) := by
  intro lines
  induction lines with
  | nil => intro s0; simp
  | cons l ls ih =>
      intro s0
      rw [List.foldl_cons, ih]
      unfold ramStep
      cases hc : parseCIDR (trimLine l) <;>
        simp [List.filterMap_cons, hc, List.append_assoc]

/-- Claim C8 (counterexample): on the single malformed line "x" the
construction does NOT add nothing — the exact-IP index receives the nil
marker key, and a nil target then tests as contained. -/
theorem ramset_malformed_added :
    ((NewRamSetByText (fun _ => (none : Option Nat))
        (fun _ => ['?']) (fun _ => (none : Option Nat)) ['x']).ipMap ≠ []) ∧
    ((NewRamSetByText (fun _ => (none : Option Nat))
        (fun _ => ['?']) (fun _ => (none : Option Nat)) ['x']).Contain
        (fun _ => ['?']) (fun _ _ => false) none = true) := by
  constructor
  · decide
  · decide

/-- Claim C8 as amended: construction processes one trimmed entry per line
and malformed (and empty) lines add only the nil-marker key, which no valid
IP's canonical form equals; hence for a parseable target, membership holds
iff some line parses to an IP with the target's canonical string (exact-index
hit) or some line parses to a CIDR block containing the target (linear
scan). -/
theorem ramset_contain_spec {α β : Type} (parseIP : List Char → Option α)
    (canon : α → List Char) (parseCIDR : List Char → Option β)
    (cidrContains : β → α → Bool) (text : List Char) (target : α)
    (hcanon : canon target ≠ nilMarker) :
    (NewRamSetByText parseIP canon parseCIDR text).Contain canon
        cidrContains (some target) = true ↔
      (∃ l ∈ splitLines text, ∃ a,
        parseIP (trimLine l) = some a ∧ canon a = canon target) ∨
      (∃ l ∈ splitLines text, ∃ sn,
        parseCIDR (trimLine l) = some sn ∧
          cidrContains sn target = true) := by
  have hsplit : (NewRamSetByText parseIP canon parseCIDR text).Contain canon
      cidrContains (some target) = true ↔
      (mapContains (NewRamSetByText parseIP canon parseCIDR text).ipMap
        (canon target) = true ∨
       (NewRamSetByText parseIP canon parseCIDR text).subnet.any
        (fun sn => cidrContains sn target) = true) := by
    rw [RamSet.Contain]
    by_cases hb : mapContains (NewRamSetByText parseIP canon parseCIDR
        text).ipMap (ipString canon (some target)) = true
    · simp only [ipString] at hb ⊢
      simp [hb]
    · simp only [ipString] at hb ⊢
      simp [hb]
  rw [hsplit]
  constructor
  · rintro (h | h)
    · left
      rw [NewRamSetByText, ramBuild_ipMap] at h
      rcases h with h | ⟨l, hl, hk⟩
      · exact absurd h (by simp [mapContains])
      · refine ⟨l, hl, ?_⟩
        cases hp : parseIP (trimLine l) with
        | none =>
            rw [hp] at hk
            exact absurd hk.symm hcanon
        | some a =>
            rw [hp] at hk
            exact ⟨a, rfl, hk⟩
    · right
      rw [NewRamSetByText, ramBuild_subnet] at h
      simp only [List.nil_append, List.any_eq_true] at h
      rcases h with ⟨sn, hsn, hcc⟩
      rcases List.mem_filterMap.mp hsn with ⟨l, hl, hpc⟩
      exact ⟨l, hl, sn, hpc, hcc⟩
  · rintro (⟨l, hl, a, hp, hk⟩ | ⟨l, hl, sn, hpc, hcc⟩)
    · left
      rw [NewRamSetByText, ramBuild_ipMap]
      right
      exact ⟨l, hl, by rw [hp]; exact hk⟩
    · right
      rw [NewRamSetByText, ramBuild_subnet]
      simp only [List.nil_append, List.any_eq_true]
      exact ⟨sn, List.mem_filterMap.mpr ⟨l, hl, hpc⟩, hcc⟩

/-- Witness for the amended C8: over the two-line text "x\n7" (one malformed
line, one literal entry), the target whose canonical form is "7" is
contained exactly per the characterization. -/
theorem ramset_contain_spec_witness :
    (fun n : Nat => if n = 7 then ['7'] else ['?']) 7 ≠ nilMarker ∧
    ((NewRamSetByText (fun s => if s = ['7'] then some (7 : Nat) else none)
        (fun n => if n = 7 then ['7'] else ['?'])
        (fun _ => (none : Option Nat)) ['x', '\n', '7']).Contain
        (fun n => if n = 7 then ['7'] else ['?'])
        (fun _ _ => false) (some 7) = true ↔
      (∃ l ∈ splitLines ['x', '\n', '7'], ∃ a : Nat,
        (if trimLine l = ['7'] then some 7 else none) = some a ∧
        (if a = 7 then ['7'] else ['?']) =
          (if 7 = 7 then ['7'] else ['?'])) ∨
      (∃ l ∈ splitLines ['x', '\n', '7'], ∃ sn : Nat,
        (none : Option Nat) = some sn ∧ false = true)) :=
  ⟨by decide,
   ramset_contain_spec (fun s => if s = ['7'] then some 7 else none)
    (fun n => if n = 7 then ['7'] else ['?']) (fun _ => none)
    (fun _ _ => false) ['x', '\n', '7'] 7 (by decide)⟩

end TsDns
